import Mathlib

/-!
Shallow embedding of the ascope firmware (src/ascope.ino) and proofs of the
spec's testable properties.

The embedding models the AVR hardware state that the sketch reads and writes
(the relevant register bits of ACSR, ADCSRA/B, ADMUX, Timer/Counter1, the
acquisition LED) together with the program's globals (`buf`, `cs`, `n`, `ch`,
`rdy`).  The ADC data register `ADCH` is modelled as an input stream
`f : Nat → Nat` together with a cursor: the busy-wait
`while (!(ADCSRA&(1<<ADIF)))` followed by a read of `ADCH` and a clear of
`ADIF` consumes one stream element and advances the cursor, and likewise each
ADC-complete interrupt in equivalent-time mode delivers the next stream
element.  A ghost `log` field records every write into the sample buffer as a
`SampleWrite` (channel, position, the OCR1B delay in force at conversion
time, and the value), so that sweep-level statements about which positions
are written, and in what order, can be made directly.
-/

set_option autoImplicit false

namespace Ascope

/-- Control structure `struct ctl cs` of the sketch: sampling mode
(`samp`, 1 = equivalent-time), trigger mode (`trig`, 0 = auto),
channel count `chs`, trigger slope `slope` (nonzero = rising) and
time-base divisor `prescale`. -/
@[ext] structure Ctl where
  samp : Nat
  trig : Nat
  chs : Nat
  slope : Nat
  prescale : Nat
deriving Repr, DecidableEq

/-- Ghost record of one write into the sample buffer: target channel and
position, the OCR1B compare value (the trigger-to-sample delay) in force
when the conversion was taken, and the converted value.  Real-time mode
has no programmed delay; its entries carry `delay = 0`. -/
structure SampleWrite where
  ch : Nat
  pos : Nat
  delay : Nat
  val : Nat
deriving Repr, DecidableEq

/-- Machine state: the sketch's globals plus the hardware bits it touches.
`adcCursor` is the read position in the ADC result stream. -/
@[ext] structure Machine where
  buf : Nat → Nat → Nat
  cs : Ctl
  n : Nat
  ch : Nat
  rdy : Bool
  admux : Nat
  aden : Bool
  adsc : Bool
  adie : Bool
  adPrescale : Nat
  adts2 : Bool
  adts0 : Bool
  acie : Bool
  aci : Bool
  acis0 : Bool
  acis1 : Bool
  tccr1b : Nat
  tcnt1 : Nat
  ocr1b : Nat
  ocf1b : Bool
  led : Bool
  adcCursor : Nat
  log : List SampleWrite

/-- Pointwise update of the two-dimensional sample buffer
`buf[c][i] = v`. -/
def updBuf (b : Nat → Nat → Nat) (c i v : Nat) : Nat → Nat → Nat :=
  fun c2 i2 => if c2 = c then (if i2 = i then v else b c2 i2) else b c2 i2

/-- Translation of `set_chan` (ascope.ino lines 21-29): disable the ADC,
set the low nibble of ADMUX to the current channel, re-enable the ADC.
The net register effect is modelled (ADEN ends up set). -/
def set_chan (s : Machine) : Machine :=
  { s with admux := s.admux / 16 * 16 + s.ch % 16, aden := true }

/-- Inner conversion loop of the real-time branch of the comparator ISR
(ascope.ino lines 52-60): `m` conversions remain, the next result is stored
at position `k` of channel `c`.  Each iteration busy-waits for ADIF, stores
`ADCH` (the stream value at the cursor) and clears ADIF, consuming one
stream element. -/
def rtLoop (f : Nat → Nat) (c : Nat) : Nat → Nat → Machine → Machine
  | 0, _, s => s
  | m + 1, k, s =>
      rtLoop f c m (k + 1)
        { s with buf := updBuf s.buf c k (f s.adcCursor)
               , log := s.log ++ [SampleWrite.mk c k 0 (f s.adcCursor)]
               , adcCursor := s.adcCursor + 1 }

/-- Translation of `ISR(ANALOG_COMP_vect)` (ascope.ino lines 32-84).
In equivalent-time mode (`cs.samp == 1`): start Timer/Counter1 by or-ing the
prescale bits into TCCR1B, disable further comparator interrupts, turn the
acquisition LED on.  In real-time mode: LED on, busy-wait for and discard the
in-flight conversion (one stream element), run `N` back-to-back conversions
into `buf[ch]`, then advance the channel; if channels remain, re-select the
mux, start the first conversion and clear the pending ACI flag, otherwise
disable comparator interrupts, LED off, and raise the ready flag. -/
def ANALOG_COMP_vect (N : Nat) (f : Nat → Nat) (s : Machine) : Machine :=
  if s.cs.samp = 1 then
    { s with tccr1b := s.tccr1b ||| s.cs.prescale, acie := false, led := true }
  else
    let s1 := { s with led := true, adcCursor := s.adcCursor + 1 }
    let s2 := rtLoop f s1.ch N 0 s1
    let s3 := { s2 with ch := s2.ch + 1 }
    if s3.ch < s3.cs.chs then
      { set_chan s3 with adsc := true, aci := false }
    else
      { s3 with acie := false, led := false, rdy := true }

/-- Translation of `ISR(ADC_vect)` (ascope.ino lines 91-128), the
equivalent-time conversion-complete handler: stop and zero the timer, clear
the compare-match flag, store `ADCH` at `buf[ch][n]`, advance the position
and the compare value (OCR1B is a 16-bit register, hence the mod 65536);
when the buffer is filled, reset position and delay and advance the channel,
re-selecting the mux when channels remain or raising the ready flag (and
returning without re-arming) when none do; otherwise re-enable the
comparator interrupt, clearing any stale pending flag in the same write. -/
def ADC_vect (N : Nat) (f : Nat → Nat) (s : Machine) : Machine :=
  let v := f s.adcCursor
  let s1 := { s with tccr1b := 0, tcnt1 := 0, ocf1b := false
                   , buf := updBuf s.buf s.ch s.n v
                   , log := s.log ++ [SampleWrite.mk s.ch s.n s.ocr1b v]
                   , adcCursor := s.adcCursor + 1 }
  let s2 := { s1 with n := s1.n + 1, ocr1b := (s1.ocr1b + 1) % 65536 }
  if s2.n = N then
    let s3 := { s2 with n := 0, ocr1b := 1, ch := s2.ch + 1 }
    if s3.ch < s3.cs.chs then
      { set_chan s3 with acie := true, aci := false }
    else
      { s3 with led := false, rdy := true }
  else
    { s2 with acie := true, aci := false }

/-- Bounded unfolding of the `while (ch < cs.chs) ANALOG_COMP_vect();` loop
of `start_sweep` (ascope.ino lines 219-220).  In real-time mode each handler
invocation increments `ch` by exactly one, so fuel `cs.chs` (the value
passed at the call site, where `ch = 0`) makes this coincide with the
unbounded source loop; `ac_loop_full_sweep` below proves the loop
condition is false when the fuel runs out. -/
def ac_loop (N : Nat) (f : Nat → Nat) : Nat → Machine → Machine
  | 0, s => s
  | fuel + 1, s =>
      if s.ch < s.cs.chs then ac_loop N f fuel (ANALOG_COMP_vect N f s) else s

/-- Translation of `start_sweep` (ascope.ino lines 173-222): set the slope
bit ACIS0 from `cs.slope`, select channel 0, then the mode-specific part.
Equivalent-time: fastest ADC clock, auto-trigger on Timer/Counter1 compare
match B, enable the ADC interrupt, initial position 0 and delay 1, enable
the comparator interrupt.  Real-time: ADC clock per `cs.prescale`,
free-running mode, ADC interrupt off, start the first conversion; in normal
trigger mode enable the comparator interrupt, in auto-trigger mode call the
comparator handler synthetically until all channels are done. -/
def start_sweep (N : Nat) (f : Nat → Nat) (s : Machine) : Machine :=
  let s1 := if s.cs.slope ≠ 0 then { s with acis0 := true }
            else { s with acis0 := false }
  let s2 := set_chan { s1 with ch := 0 }
  if s2.cs.samp = 1 then
    { s2 with adPrescale := 2, adts2 := true, adts0 := true, adie := true
            , n := 0, ocr1b := 1, acie := true }
  else
    let s3 := { s2 with adPrescale := s2.cs.prescale, adts2 := false
                      , adts0 := false, adie := false, adsc := true }
    if s3.cs.trig ≠ 0 then { s3 with acie := true }
    else ac_loop N f s3.cs.chs s3

/-- Modelled from the spec: the control-word codec `parsecw` lives in
ascope.h, which is not under src/ (only its call sites in `loop` are).
Per spec section 4.1 the decoder is total: every byte maps to some valid
state, undefined bit patterns clamping to the nearest valid enumerated
value.  Field layout chosen for the model: bit 7 sampling mode, bit 6
trigger mode, bit 5 slope, bits 4-3 channel count (clamped to 1..2),
bits 2-0 time-base divisor (clamped to the valid codes 2..7, 2 being the
fastest; the sketch's `setup` uses 2 as the fastest rate). -/
def parsecw (b : Nat) : Ctl :=
  { samp := b / 128 % 2
  , trig := b / 64 % 2
  , slope := b / 32 % 2
  , chs := if b / 8 % 4 < 1 then 1 else if 2 < b / 8 % 4 then 2 else b / 8 % 4
  , prescale := if b % 8 < 2 then 2 else b % 8 }

/-- Modelled from the spec: the encoder `makecw`, inverse of `parsecw` on
valid states, from the same missing header.  Packs the five fields into one
byte with the layout of `parsecw`. -/
def makecw (c : Ctl) : Nat :=
  c.samp * 128 + c.trig * 64 + c.slope * 32 + c.chs * 8 + c.prescale

/-- Valid control states per spec section 3: each mode field is one of its
two enumerated values, `channel_count ∈ {1, 2}`, and the time-base divisor
is one of the enumerated valid codes (2..7 in this model). -/
def ValidCtl (c : Ctl) : Prop :=
  c.samp ≤ 1 ∧ c.trig ≤ 1 ∧ c.slope ≤ 1 ∧ (c.chs = 1 ∨ c.chs = 2) ∧
    2 ≤ c.prescale ∧ c.prescale ≤ 7

instance (c : Ctl) : Decidable (ValidCtl c) := by
  unfold ValidCtl; infer_instance

/-- Data section of a device-to-host frame (ascope.ino lines 251-258):
`cs.chs` blocks of `N` sample bytes, channel-major, a raw value of 0
remapped to 1 on the way out. -/
def write_data (N : Nat) (s : Machine) : List Nat :=
  (List.range s.cs.chs).flatMap fun c =>
    (List.range N).map fun p => if s.buf c p = 0 then 1 else s.buf c p

/-- One device-to-host frame (ascope.ino lines 246-260): sync marker 0,
the current control word, then either 1 followed by the data section (ready)
or 255 alone (not ready). -/
def frame (N : Nat) (s : Machine) : List Nat :=
  0 :: makecw s.cs :: (if s.rdy then 1 :: write_data N s else [255])

/-- Abort path of `loop` (ascope.ino lines 234-243), taken when a control
byte `c` arrives while the sweep is still running: disable the comparator
interrupt, stop the timer, parse the new control word into `cs`, clear the
ready flag, and fall through to frame transmission. -/
def loop_abort (c : Nat) (s : Machine) : Machine :=
  { s with acie := false, tccr1b := 0, cs := parsecw c, rdy := false }

/-- Initial control state set at the end of `setup`
(ascope.ino lines 164-169). -/
def setup_cs : Ctl :=
  { samp := 0, trig := 0, chs := 1, slope := 1, prescale := 2 }

/-- Machine state after reset and `setup` (ascope.ino lines 130-170):
zero-initialised globals, ACIS1 set, ACIS0 still clear, timer stopped,
auto-trigger enable and ADEN set, LED off, and the default control state. -/
def setup_machine : Machine :=
  { buf := fun _ _ => 0, cs := setup_cs, n := 0, ch := 0, rdy := false
  , admux := 96, aden := true, adsc := false, adie := false
  , adPrescale := 0, adts2 := false, adts0 := false
  , acie := false, aci := false, acis0 := false, acis1 := true
  , tccr1b := 0, tcnt1 := 0, ocr1b := 0, ocf1b := false, led := false
  , adcCursor := 0, log := [] }

/-- Iterate an interrupt handler: `runISR g k s` applies `g` to `s`
`k` times (first event first). -/
def runISR (g : Machine → Machine) : Nat → Machine → Machine
  | 0, s => s
  | k + 1, s => runISR g k (g s)

/-- Whether the analog comparator interrupt can be taken: both the enable
bit ACIE and the pending flag ACI must be set. -/
def canFireAC (s : Machine) : Bool := s.acie && s.aci

/-- Setting the trigger-mode field alone, used to state that equivalent-time
acquisition does not depend on it. -/
def set_trig (s : Machine) (t : Nat) : Machine :=
  { s with cs := { s.cs with trig := t } }

/-- One trigger event in equivalent-time mode: the comparator interrupt
fires (starting the timer and disarming the comparator), and the conversion
launched by the ensuing compare match completes, running the ADC interrupt.
An equivalent-time sweep is `cs.chs * N` such events. -/
def et_cycle (N : Nat) (f : Nat → Nat) (s : Machine) : Machine :=
  ADC_vect N f (ANALOG_COMP_vect N f s)

/-- Ghost description of the log entries produced by one real-time channel
fill: `m` entries for channel `c` starting at position `k`, reading the
stream from cursor `a`. -/
def sampleBlock (f : Nat → Nat) (c : Nat) : Nat → Nat → Nat → List SampleWrite
  | 0, _, _ => []
  | m + 1, k, a => SampleWrite.mk c k 0 (f a) :: sampleBlock f c m (k + 1) (a + 1)

/-- Ghost description of the log entries produced by a real-time sweep over
`k` channels starting at channel `c0` with the stream cursor at `a`: each
channel discards one stream element, then stores `N`. -/
def rtSweepLog (f : Nat → Nat) (N : Nat) : Nat → Nat → Nat → List SampleWrite
  | 0, _, _ => []
  | k + 1, c0, a =>
      sampleBlock f c0 N 0 (a + 1) ++ rtSweepLog f N k (c0 + 1) (a + (N + 1))

/-- Equivalent-time mode as the sketch tests it: `cs.samp == 1`
(ascope.ino line 33); every other value selects real-time mode. -/
def isEquivalentTime (c : Ctl) : Prop := c.samp = 1

/-- Auto-trigger mode as the sketch tests it: `cs.trig` zero
(ascope.ino line 212, `if (cs.trig)` selects normal triggering). -/
def isAutoTrigger (c : Ctl) : Prop := c.trig = 0

/-- Rising trigger slope as the sketch tests it: `cs.slope` nonzero
(ascope.ino lines 176-181, nonzero sets ACIS0, trigger on rising edge). -/
def isRisingSlope (c : Ctl) : Prop := c.slope ≠ 0

/-- Fastest ADC clock divisor code: the value the sketch calls the fastest
rate (ascope.ino line 169 and the equivalent-time branch at line 189). -/
def fastest_adc_prescale : Nat := 2

/-- Concrete two-channel equivalent-time configuration used by the witness
statements. -/
def demo_et : Machine :=
  { setup_machine with
      cs := { samp := 1, trig := 0, chs := 2, slope := 1, prescale := 2 } }

/-- Concrete two-channel real-time auto-trigger configuration used by the
witness statements. -/
def demo_rt : Machine :=
  { setup_machine with
      cs := { samp := 0, trig := 0, chs := 2, slope := 1, prescale := 2 } }

/-- Concrete ADC result stream used by the witness statements. -/
def demo_stream : Nat → Nat := fun i => 10 + i

end Ascope

namespace Ascope

/-! ### List helpers for block-structured data -/

theorem flat_blocks_length {α : Type} (g : Nat → List α) (N k : Nat)
    (h : ∀ i, (g i).length = N) :
    ((List.range k).flatMap g).length = k * N := by
  induction k with
  | zero => simp
  | succ k ih =>
      rw [List.range_succ, List.flatMap_append, List.length_append, ih,
        List.flatMap_cons, List.flatMap_nil, List.append_nil, h, Nat.succ_mul]

theorem flat_blocks_getElem {α : Type} (g : Nat → List α) (N k c p : Nat)
    (h : ∀ i, (g i).length = N) (hc : c < k) (hp : p < N) :
    ((List.range k).flatMap g)[c * N + p]? = (g c)[p]? := by
  induction k with
  | zero => omega
  | succ k ih =>
      rw [List.range_succ, List.flatMap_append, List.flatMap_cons,
        List.flatMap_nil, List.append_nil]
      rcases Nat.lt_or_ge c k with hck | hck
      · have hlt : c * N + p < ((List.range k).flatMap g).length := by
          rw [flat_blocks_length g N k h]
          have h1 : c * N + p < (c + 1) * N := by
            rw [Nat.add_mul, Nat.one_mul]; omega
          have h2 : (c + 1) * N ≤ k * N := Nat.mul_le_mul_right N hck
          omega
        rw [List.getElem?_append, if_pos hlt]
        exact ih hck
      · have hck2 : c = k := by omega
        subst hck2
        have hlen : ((List.range c).flatMap g).length = c * N :=
          flat_blocks_length g N c h
        rw [List.getElem?_append_right (by omega), hlen]
        congr 1
        omega

/-! ### Control-word codec -/

theorem parsecw_total (b : Nat) : ValidCtl (parsecw b) := by
  unfold ValidCtl parsecw
  refine ⟨?_, ?_, ?_, ?_, ?_, ?_⟩ <;> simp only <;>
    first
    | omega
    | (split_ifs <;> omega)

theorem parsecw_makecw (c : Ctl) (h : ValidCtl c) : parsecw (makecw c) = c := by
  obtain ⟨sa, tr, chs, sl, pr⟩ := c
  obtain ⟨h1, h2, h3, h4, h5, h6⟩ := h
  simp only at h1 h2 h3 h4 h5 h6
  interval_cases sa <;> interval_cases tr <;> interval_cases sl <;>
    rcases h4 with rfl | rfl <;> interval_cases pr <;> decide

/-- C6: the control-word codec is total — every byte value decodes to some
valid control state, undefined bit patterns clamping to the nearest valid
enumerated value — and on every valid control-state byte encoding `b`,
`encode (decode b) = b`. -/
theorem ctl_codec_total_and_roundtrip :
    (∀ b : Nat, ValidCtl (parsecw b)) ∧
    (∀ b : Nat, (∃ c : Ctl, ValidCtl c ∧ makecw c = b) →
      makecw (parsecw b) = b) := by
  refine ⟨parsecw_total, ?_⟩
  rintro b ⟨c, hc, rfl⟩
  rw [parsecw_makecw c hc]

/-- Witness for the codec claim: byte 5 decodes to a valid state, and the
valid encoding 42 (the power-on default state) round-trips. -/
theorem ctl_codec_total_and_roundtrip_w :
    ValidCtl (parsecw 5) ∧ makecw (parsecw 42) = 42 :=
  ⟨ctl_codec_total_and_roundtrip.1 5,
    ctl_codec_total_and_roundtrip.2 42 ⟨setup_cs, by decide, by decide⟩⟩

/-- C9: at power-on, `setup` leaves the control state at the default
configuration: real-time sampling mode, auto trigger, rising slope, one
channel, and the fastest ADC divisor; the default is a valid state. -/
theorem setup_default_ctl :
    setup_machine.cs = setup_cs ∧
    ¬ isEquivalentTime setup_cs ∧ isAutoTrigger setup_cs ∧
    isRisingSlope setup_cs ∧ setup_cs.chs = 1 ∧
    setup_cs.prescale = fastest_adc_prescale ∧ ValidCtl setup_cs :=
  ⟨rfl, by unfold isEquivalentTime; decide, rfl,
    by unfold isRisingSlope; decide, rfl, rfl, by decide⟩

/-! ### Transport framing -/

theorem write_data_length (N : Nat) (s : Machine) :
    (write_data N s).length = s.cs.chs * N := by
  unfold write_data
  exact flat_blocks_length _ N _ (fun i => by simp)

theorem write_data_getElem (N : Nat) (s : Machine) (c p : Nat)
    (hc : c < s.cs.chs) (hp : p < N) :
    (write_data N s)[c * N + p]? =
      some (if s.buf c p = 0 then 1 else s.buf c p) := by
  unfold write_data
  rw [flat_blocks_getElem _ N _ c p (fun i => by simp) hc hp,
    List.getElem?_map, List.getElem?_range hp]
  rfl

/-- C5: every device-to-host frame starts with the sync byte 0, then the
encoded control state, then the outcome byte (1 when data is ready, 255
when not); only a ready frame appends `cs.chs * N` data bytes, in
channel-major then sample-minor order (byte `3 + c*N + p` is the remapped
sample of channel `c` at position `p`); a not-ready frame is exactly the
three header bytes. -/
theorem frame_layout (N : Nat) (s : Machine) :
    (frame N s).length = 3 + (if s.rdy then s.cs.chs * N else 0) ∧
    (frame N s)[0]? = some 0 ∧
    (frame N s)[1]? = some (makecw s.cs) ∧
    (frame N s)[2]? = some (if s.rdy then 1 else 255) ∧
    (s.rdy = true → ∀ c p, c < s.cs.chs → p < N →
      (frame N s)[3 + (c * N + p)]? =
        some (if s.buf c p = 0 then 1 else s.buf c p)) ∧
    (s.rdy = false → frame N s = [0, makecw s.cs, 255]) := by
  cases hr : s.rdy
  · have hfr : frame N s = [0, makecw s.cs, 255] := by
      unfold frame; rw [hr]; rfl
    rw [hfr]
    refine ⟨by rfl, by rfl, by rfl, by rfl, ?_, fun _ => rfl⟩
    intro h
    exact absurd h (by decide)
  · have hfr : frame N s = 0 :: makecw s.cs :: 1 :: write_data N s := by
      unfold frame; rw [hr]; rfl
    rw [hfr]
    refine ⟨?_, by rfl, by rfl, by simp, ?_, ?_⟩
    · simp only [List.length_cons, write_data_length, if_pos]
      omega
    · intro _ c p hc hp
      have h3 : 3 + (c * N + p) = (c * N + p) + 1 + 1 + 1 := by omega
      rw [h3]
      simp only [List.getElem?_cons_succ]
      exact write_data_getElem N s c p hc hp
    · intro hfalse
      exact absurd hfalse (by decide)

/-- Witness for the frame-layout claim: with a ready one-channel machine
whose buffer is all zeroes and N = 2, data byte `3 + 0*2 + 1` is the
remapped value 1. -/
theorem frame_layout_w :
    (frame 2 { setup_machine with rdy := true })[3 + (0 * 2 + 1)]? =
      some 1 := by
  simpa using
    (frame_layout 2 { setup_machine with rdy := true }).2.2.2.2.1
      rfl 0 1 (by decide) (by decide)

/-- C8: every byte of a frame's data section is nonzero — a raw sample
value of 0 is remapped to 1 before transmission, and every other sample is
transmitted unchanged and is already nonzero. -/
theorem write_data_remaps_zero (N : Nat) (s : Machine) (b : Nat)
    (hb : b ∈ write_data N s) :
    b ≠ 0 ∧ (∀ c p, c < s.cs.chs → p < N → s.buf c p = 0 →
      (write_data N s)[c * N + p]? = some 1) := by
  constructor
  · unfold write_data at hb
    rw [List.mem_flatMap] at hb
    obtain ⟨c, _, hb⟩ := hb
    rw [List.mem_map] at hb
    obtain ⟨p, _, hb⟩ := hb
    split_ifs at hb <;> omega
  · intro c p hc hp hz
    rw [write_data_getElem N s c p hc hp]
    simp [hz]

/-- Witness for the remap claim: the all-zero buffer of the power-on state
transmits as the byte 1, which is nonzero. -/
theorem write_data_remaps_zero_w : (1 : Nat) ≠ 0 :=
  (write_data_remaps_zero 2 setup_machine 1 (by decide)).1

/-! ### Sweep abort on an incoming control byte -/

theorem rtLoop_cs (f : Nat → Nat) (c : Nat) :
    ∀ (m k : Nat) (s : Machine), (rtLoop f c m k s).cs = s.cs := by
  intro m
  induction m with
  | zero => intro k s; rfl
  | succ m ih => intro k s; rw [rtLoop]; rw [ih]

theorem AC_cs (N : Nat) (f : Nat → Nat) (s : Machine) :
    (ANALOG_COMP_vect N f s).cs = s.cs := by
  unfold ANALOG_COMP_vect
  split
  · rfl
  · dsimp only
    split
    · simp [set_chan, rtLoop_cs]
    · simp [rtLoop_cs]

theorem ac_loop_cs (N : Nat) (f : Nat → Nat) :
    ∀ (fuel : Nat) (s : Machine), (ac_loop N f fuel s).cs = s.cs := by
  intro fuel
  induction fuel with
  | zero => intro s; rfl
  | succ fuel ih =>
      intro s
      rw [ac_loop]
      split
      · rw [ih, AC_cs]
      · rfl

theorem start_sweep_cs (N : Nat) (f : Nat → Nat) (s : Machine) :
    (start_sweep N f s).cs = s.cs := by
  unfold start_sweep
  dsimp only
  split_ifs <;> simp [set_chan, ac_loop_cs]

/-- C3 counterexample: when the control byte 170 arrives during a sweep
started from the power-on state (whose control byte is 42), the very next
frame carries the NEW control byte 170, not the pre-update byte 42 — the
code runs `parsecw` before `makecw(cs)` is transmitted, so the claim that
the frame reports the previous control state byte is false. -/
theorem abort_frame_carries_new_cw_cex :
    frame 256 (loop_abort 170 setup_machine) = [0, 170, 255] ∧
    makecw setup_machine.cs = 42 ∧ makecw (parsecw 170) = 170 ∧
    (170 : Nat) ≠ 42 := by
  refine ⟨by decide, by decide, by decide, by decide⟩

/-- C3 (amended): a control byte `c` received while the ready flag is false
aborts the sweep: the comparator interrupt is disabled, the timer stopped,
the ready flag stays false, and the next transmitted frame is exactly the
three bytes sync marker, NEW (post-update) control-state byte, 255 — so the
aborted sweep's buffer is never transmitted — and the new configuration is
the one in force for the sweep started on the next loop iteration. -/
theorem abort_discards_and_reports_new_cw (N c : Nat) (f : Nat → Nat)
    (s : Machine) :
    frame N (loop_abort c s) = [0, makecw (parsecw c), 255] ∧
    (loop_abort c s).rdy = false ∧
    (loop_abort c s).acie = false ∧
    (loop_abort c s).tccr1b = 0 ∧
    (loop_abort c s).cs = parsecw c ∧
    (start_sweep N f (loop_abort c s)).cs = parsecw c := by
  refine ⟨rfl, rfl, rfl, rfl, rfl, ?_⟩
  rw [start_sweep_cs]
  rfl

end Ascope

namespace Ascope

/-! ### Real-time acquisition -/

theorem sampleBlock_zero (f : Nat → Nat) (c k a : Nat) :
    sampleBlock f c 0 k a = [] := rfl

theorem rtLoop_spec (f : Nat → Nat) (c : Nat) :
    ∀ (m k : Nat) (s : Machine),
      rtLoop f c m k s =
        { s with
            buf := fun c2 p =>
              if c2 = c ∧ k ≤ p ∧ p < k + m then f (s.adcCursor + (p - k))
              else s.buf c2 p
          , log := s.log ++ sampleBlock f c m k s.adcCursor
          , adcCursor := s.adcCursor + m } := by
  intro m
  induction m with
  | zero =>
      intro k s
      simp only [rtLoop, sampleBlock, List.append_nil, Nat.add_zero]
      rw [Machine.ext_iff]
      refine ⟨?_, rfl, rfl, rfl, rfl, rfl, rfl, rfl, rfl, rfl, rfl, rfl, rfl,
        rfl, rfl, rfl, rfl, rfl, rfl, rfl, rfl, rfl, rfl⟩
      funext c2 p
      show s.buf c2 p =
        if c2 = c ∧ k ≤ p ∧ p < k then f (s.adcCursor + (p - k)) else s.buf c2 p
      rw [if_neg]
      rintro ⟨h1, h2, h3⟩
      omega
  | succ m ih =>
      intro k s
      simp only [rtLoop]
      rw [ih]
      rw [Machine.ext_iff]
      refine ⟨?_, rfl, rfl, rfl, rfl, rfl, rfl, rfl, rfl, rfl, rfl, rfl, rfl,
        rfl, rfl, rfl, rfl, rfl, rfl, rfl, rfl, ?_, ?_⟩
      · funext c2 p
        simp only [updBuf]
        split_ifs <;>
          first
          | rfl
          | (congr 1; omega)
      · show s.adcCursor + 1 + m = s.adcCursor + (m + 1)
        omega
      · show (s.log ++ [SampleWrite.mk c k 0 (f s.adcCursor)]) ++
            sampleBlock f c m (k + 1) (s.adcCursor + 1) =
          s.log ++ sampleBlock f c (m + 1) k s.adcCursor
        rw [List.append_assoc, List.singleton_append]
        rfl

theorem AC_rt_fields (N : Nat) (f : Nat → Nat) (s : Machine)
    (h : s.cs.samp ≠ 1) :
    (ANALOG_COMP_vect N f s).cs = s.cs ∧
    (ANALOG_COMP_vect N f s).ch = s.ch + 1 ∧
    (ANALOG_COMP_vect N f s).n = s.n ∧
    (ANALOG_COMP_vect N f s).adcCursor = s.adcCursor + (N + 1) ∧
    (ANALOG_COMP_vect N f s).log =
      s.log ++ sampleBlock f s.ch N 0 (s.adcCursor + 1) ∧
    (ANALOG_COMP_vect N f s).acis0 = s.acis0 ∧
    (ANALOG_COMP_vect N f s).ocr1b = s.ocr1b ∧
    (∀ p, p < N →
      (ANALOG_COMP_vect N f s).buf s.ch p = f (s.adcCursor + 1 + p)) ∧
    (∀ c2 p, c2 ≠ s.ch ∨ N ≤ p →
      (ANALOG_COMP_vect N f s).buf c2 p = s.buf c2 p) ∧
    (s.ch + 1 < s.cs.chs →
      (ANALOG_COMP_vect N f s).rdy = s.rdy ∧
      (ANALOG_COMP_vect N f s).acie = s.acie ∧
      (ANALOG_COMP_vect N f s).aci = false) ∧
    (¬ s.ch + 1 < s.cs.chs →
      (ANALOG_COMP_vect N f s).rdy = true ∧
      (ANALOG_COMP_vect N f s).acie = false) := by
  unfold ANALOG_COMP_vect
  rw [if_neg h]
  dsimp only
  rw [rtLoop_spec]
  dsimp only
  split_ifs with hlt
  · refine ⟨rfl, rfl, rfl, by show s.adcCursor + 1 + N = _; omega, rfl, rfl,
      rfl, ?_, ?_, fun _ => ⟨rfl, rfl, rfl⟩, fun hn => absurd hlt hn⟩
    · intro p hp
      show (if s.ch = s.ch ∧ 0 ≤ p ∧ p < 0 + N then
          f (s.adcCursor + 1 + (p - 0)) else s.buf s.ch p) = f (s.adcCursor + 1 + p)
      rw [if_pos ⟨rfl, by omega, by omega⟩]
      simp
    · intro c2 p hcp
      show (if c2 = s.ch ∧ 0 ≤ p ∧ p < 0 + N then
          f (s.adcCursor + 1 + (p - 0)) else s.buf c2 p) = s.buf c2 p
      rw [if_neg]
      rintro ⟨he, h2, h3⟩
      rcases hcp with hcp | hcp
      · exact hcp he
      · omega
  · refine ⟨rfl, rfl, rfl, by show s.adcCursor + 1 + N = _; omega, rfl, rfl,
      rfl, ?_, ?_, fun hc => absurd hc hlt, fun _ => ⟨rfl, rfl⟩⟩
    · intro p hp
      show (if s.ch = s.ch ∧ 0 ≤ p ∧ p < 0 + N then
          f (s.adcCursor + 1 + (p - 0)) else s.buf s.ch p) = f (s.adcCursor + 1 + p)
      rw [if_pos ⟨rfl, by omega, by omega⟩]
      simp
    · intro c2 p hcp
      show (if c2 = s.ch ∧ 0 ≤ p ∧ p < 0 + N then
          f (s.adcCursor + 1 + (p - 0)) else s.buf c2 p) = s.buf c2 p
      rw [if_neg]
      rintro ⟨he, h2, h3⟩
      rcases hcp with hcp | hcp
      · exact hcp he
      · omega

end Ascope

namespace Ascope

theorem rt_sweep_aux (N : Nat) (f : Nat → Nat) :
    ∀ (k : Nat) (s : Machine), s.cs.samp ≠ 1 → s.ch + k = s.cs.chs → 0 < k →
      (runISR (ANALOG_COMP_vect N f) k s).rdy = true ∧
      (runISR (ANALOG_COMP_vect N f) k s).ch = s.cs.chs ∧
      (runISR (ANALOG_COMP_vect N f) k s).cs = s.cs ∧
      (runISR (ANALOG_COMP_vect N f) k s).adcCursor =
        s.adcCursor + k * (N + 1) ∧
      (runISR (ANALOG_COMP_vect N f) k s).log =
        s.log ++ rtSweepLog f N k s.ch s.adcCursor ∧
      (∀ j p, j < k → p < N →
        (runISR (ANALOG_COMP_vect N f) k s).buf (s.ch + j) p =
          f (s.adcCursor + j * (N + 1) + 1 + p)) ∧
      (∀ c2 p, c2 < s.ch ∨ N ≤ p →
        (runISR (ANALOG_COMP_vect N f) k s).buf c2 p = s.buf c2 p) := by
  intro k
  induction k with
  | zero => intro s _ _ h0; omega
  | succ k ih =>
      intro s hsamp hch _
      obtain ⟨hcs, hch1, hn, hcur, hlog, hacis0, hocr, hbufset, hbufold,
        hmore, hdone⟩ := AC_rt_fields N f s hsamp
      rcases Nat.eq_zero_or_pos k with rfl | hk
      · have hnlt : ¬ s.ch + 1 < s.cs.chs := by omega
        obtain ⟨hr, hac⟩ := hdone hnlt
        refine ⟨hr, ?_, hcs, ?_, ?_, ?_, ?_⟩
        · show (ANALOG_COMP_vect N f s).ch = s.cs.chs
          rw [hch1]; omega
        · show (ANALOG_COMP_vect N f s).adcCursor = s.adcCursor + 1 * (N + 1)
          rw [hcur]; ring
        · show (ANALOG_COMP_vect N f s).log =
            s.log ++ rtSweepLog f N 1 s.ch s.adcCursor
          rw [hlog, rtSweepLog, rtSweepLog, List.append_nil]
        · intro j p hj hp
          have hj0 : j = 0 := by omega
          subst hj0
          show (ANALOG_COMP_vect N f s).buf (s.ch + 0) p =
            f (s.adcCursor + 0 * (N + 1) + 1 + p)
          have e1 : s.ch + 0 = s.ch := by omega
          have e2 : s.adcCursor + 0 * (N + 1) + 1 + p =
              s.adcCursor + 1 + p := by ring
          rw [e1, e2]
          exact hbufset p hp
        · intro c2 p hcp
          show (ANALOG_COMP_vect N f s).buf c2 p = s.buf c2 p
          apply hbufold
          rcases hcp with hcp | hcp
          · left; omega
          · right; exact hcp
      · have hlt : s.ch + 1 < s.cs.chs := by omega
        obtain ⟨hr, hacie, haci⟩ := hmore hlt
        obtain ⟨ir, ic, ics, icur, ilog, ibufset, ibufold⟩ :=
          ih (ANALOG_COMP_vect N f s) (by rw [hcs]; exact hsamp)
            (by rw [hcs, hch1]; omega) hk
        refine ⟨ir, ?_, ?_, ?_, ?_, ?_, ?_⟩
        · show (runISR (ANALOG_COMP_vect N f) k (ANALOG_COMP_vect N f s)).ch =
            s.cs.chs
          rw [ic, hcs]
        · show (runISR (ANALOG_COMP_vect N f) k (ANALOG_COMP_vect N f s)).cs =
            s.cs
          rw [ics, hcs]
        · show (runISR (ANALOG_COMP_vect N f) k
              (ANALOG_COMP_vect N f s)).adcCursor =
            s.adcCursor + (k + 1) * (N + 1)
          rw [icur, hcur]; ring
        · show (runISR (ANALOG_COMP_vect N f) k
              (ANALOG_COMP_vect N f s)).log =
            s.log ++ rtSweepLog f N (k + 1) s.ch s.adcCursor
          rw [ilog, hlog, hcur, hch1, List.append_assoc]
          congr 1
        · intro j p hj hp
          rcases j with _ | j
          · show (runISR (ANALOG_COMP_vect N f) k
                (ANALOG_COMP_vect N f s)).buf (s.ch + 0) p =
              f (s.adcCursor + 0 * (N + 1) + 1 + p)
            have e1 : s.ch + 0 = s.ch := by omega
            have e2 : s.adcCursor + 0 * (N + 1) + 1 + p =
                s.adcCursor + 1 + p := by ring
            rw [e1, e2, ibufold s.ch p (by left; rw [hch1]; omega)]
            exact hbufset p hp
          · have hb := ibufset j p (by omega) hp
            rw [hch1, hcur] at hb
            have e1 : s.ch + 1 + j = s.ch + (j + 1) := by omega
            have e2 : s.adcCursor + (N + 1) + j * (N + 1) + 1 + p =
                s.adcCursor + (j + 1) * (N + 1) + 1 + p := by ring
            rw [e1, e2] at hb
            exact hb
        · intro c2 p hcp
          have hstep : (ANALOG_COMP_vect N f s).buf c2 p = s.buf c2 p := by
            apply hbufold
            rcases hcp with hcp | hcp
            · left; omega
            · right; exact hcp
          have hor : c2 < (ANALOG_COMP_vect N f s).ch ∨ N ≤ p := by
            rcases hcp with hcp | hcp
            · left; rw [hch1]; omega
            · right; exact hcp
          show (runISR (ANALOG_COMP_vect N f) k
              (ANALOG_COMP_vect N f s)).buf c2 p = s.buf c2 p
          rw [ibufold c2 p hor, hstep]

end Ascope

namespace Ascope

theorem flatMap_congr_aux {α β : Type} (l : List α) (f g : α → List β)
    (h : ∀ x ∈ l, f x = g x) : l.flatMap f = l.flatMap g := by
  induction l with
  | nil => rfl
  | cons x xs ih =>
      rw [List.flatMap_cons, List.flatMap_cons, h x (by simp),
        ih (fun y hy => h y (by simp [hy]))]

theorem sampleBlock_eq_map (f : Nat → Nat) (c : Nat) :
    ∀ (m k a : Nat), sampleBlock f c m k a =
      (List.range m).map (fun i => SampleWrite.mk c (k + i) 0 (f (a + i))) := by
  intro m
  induction m with
  | zero => intro k a; rfl
  | succ m ih =>
      intro k a
      rw [sampleBlock, ih (k + 1) (a + 1), List.range_succ_eq_map,
        List.map_cons, List.map_map]
      have htail : (List.range m).map
            (fun i => SampleWrite.mk c (k + 1 + i) 0 (f (a + 1 + i))) =
          (List.range m).map
            ((fun i => SampleWrite.mk c (k + i) 0 (f (a + i))) ∘ Nat.succ) := by
        apply List.map_congr_left
        intro i _
        show SampleWrite.mk c (k + 1 + i) 0 (f (a + 1 + i)) =
          SampleWrite.mk c (k + Nat.succ i) 0 (f (a + Nat.succ i))
        have e1 : k + 1 + i = k + Nat.succ i := by omega
        have e2 : a + 1 + i = a + Nat.succ i := by omega
        rw [e1, e2]
      rw [htail]
      simp

theorem rtSweepLog_eq_flatMap (f : Nat → Nat) (N : Nat) :
    ∀ (k c0 a : Nat), rtSweepLog f N k c0 a =
      (List.range k).flatMap (fun j =>
        (List.range N).map (fun p =>
          SampleWrite.mk (c0 + j) p 0 (f (a + j * (N + 1) + 1 + p)))) := by
  intro k
  induction k with
  | zero => intro c0 a; rfl
  | succ k ih =>
      intro c0 a
      rw [rtSweepLog, ih (c0 + 1) (a + (N + 1)), List.range_succ_eq_map,
        List.flatMap_cons, List.flatMap_map]
      congr 1
      · rw [sampleBlock_eq_map]
        apply List.map_congr_left
        intro p _
        show SampleWrite.mk c0 (0 + p) 0 (f (a + 1 + p)) =
          SampleWrite.mk (c0 + 0) p 0 (f (a + 0 * (N + 1) + 1 + p))
        have e1 : (0 : Nat) + p = p := by omega
        have e2 : c0 + 0 = c0 := by omega
        have e3 : a + 0 * (N + 1) + 1 + p = a + 1 + p := by simp
        rw [e1, e2, e3]
      · apply flatMap_congr_aux
        intro j _
        apply List.map_congr_left
        intro p _
        show SampleWrite.mk (c0 + 1 + j) p 0
            (f (a + (N + 1) + j * (N + 1) + 1 + p)) =
          SampleWrite.mk (c0 + Nat.succ j) p 0
            (f (a + Nat.succ j * (N + 1) + 1 + p))
        have e1 : c0 + 1 + j = c0 + Nat.succ j := by omega
        have e2 : a + (N + 1) + j * (N + 1) + 1 + p =
            a + Nat.succ j * (N + 1) + 1 + p := by
          rw [Nat.succ_eq_add_one]; ring
        rw [e1, e2]

/-- C2: in real-time mode, each trigger fire first discards the in-flight
conversion (one stream element consumed without being stored) and then
performs exactly N back-to-back conversions for the active channel; a
completed sweep over `cs.chs` in {1, 2} trigger fires therefore stores
exactly N samples per active channel — sample `p` of channel `c` is the
converter's raw output `f (cursor + c*(N+1) + 1 + p)`, skipping the
discarded results — raises the ready flag and consumes `chs * (N + 1)`
stream elements in total. -/
theorem rt_sweep_sample_counts (N : Nat) (f : Nat → Nat) (s : Machine)
    (hsamp : s.cs.samp ≠ 1) (hch : s.ch = 0)
    (hchs : s.cs.chs = 1 ∨ s.cs.chs = 2) :
    (runISR (ANALOG_COMP_vect N f) s.cs.chs s).rdy = true ∧
    (runISR (ANALOG_COMP_vect N f) s.cs.chs s).ch = s.cs.chs ∧
    (runISR (ANALOG_COMP_vect N f) s.cs.chs s).adcCursor =
      s.adcCursor + s.cs.chs * (N + 1) ∧
    (runISR (ANALOG_COMP_vect N f) s.cs.chs s).log =
      s.log ++ (List.range s.cs.chs).flatMap (fun c =>
        (List.range N).map (fun p =>
          SampleWrite.mk c p 0 (f (s.adcCursor + c * (N + 1) + 1 + p)))) ∧
    (∀ c p, c < s.cs.chs → p < N →
      (runISR (ANALOG_COMP_vect N f) s.cs.chs s).buf c p =
        f (s.adcCursor + c * (N + 1) + 1 + p)) := by
  have h0 : 0 < s.cs.chs := by rcases hchs with h | h <;> omega
  obtain ⟨hr, hc, _, hcur, hlog, hbufset, _⟩ :=
    rt_sweep_aux N f s.cs.chs s hsamp (by omega) h0
  refine ⟨hr, hc, hcur, ?_, ?_⟩
  · rw [hlog, hch, rtSweepLog_eq_flatMap]
    congr 1
    apply flatMap_congr_aux
    intro j _
    apply List.map_congr_left
    intro p _
    have e : (0 : Nat) + j = j := by omega
    rw [e]
  · intro c p hcv hp
    have hb := hbufset c p hcv hp
    rw [hch] at hb
    simpa using hb

/-- Witness for the real-time sweep claim: a two-channel auto sweep at
N = 2 from the demo configuration ends ready. -/
theorem rt_sweep_sample_counts_w :
    (runISR (ANALOG_COMP_vect 2 demo_stream) demo_rt.cs.chs demo_rt).rdy =
      true :=
  (rt_sweep_sample_counts 2 demo_stream demo_rt (by decide) rfl
    (Or.inr rfl)).1

end Ascope

namespace Ascope

/-! ### Sweep start-up -/

theorem AC_acis0 (N : Nat) (f : Nat → Nat) (s : Machine) :
    (ANALOG_COMP_vect N f s).acis0 = s.acis0 := by
  unfold ANALOG_COMP_vect
  split
  · rfl
  · dsimp only
    rw [rtLoop_spec]
    dsimp only
    split <;> rfl

theorem ac_loop_acis0 (N : Nat) (f : Nat → Nat) :
    ∀ (fuel : Nat) (s : Machine), (ac_loop N f fuel s).acis0 = s.acis0 := by
  intro fuel
  induction fuel with
  | zero => intro s; rfl
  | succ fuel ih =>
      intro s
      rw [ac_loop]
      split
      · rw [ih, AC_acis0]
      · rfl

theorem ac_loop_eq_runISR (N : Nat) (f : Nat → Nat) :
    ∀ (k : Nat) (s : Machine), s.cs.samp ≠ 1 → s.ch + k = s.cs.chs →
      ac_loop N f k s = runISR (ANALOG_COMP_vect N f) k s := by
  intro k
  induction k with
  | zero => intro s _ _; rfl
  | succ k ih =>
      intro s hsamp hch
      obtain ⟨hcs, hch1, _⟩ := AC_rt_fields N f s hsamp
      rw [ac_loop, if_pos (by omega)]
      show ac_loop N f k (ANALOG_COMP_vect N f s) =
        runISR (ANALOG_COMP_vect N f) k (ANALOG_COMP_vect N f s)
      exact ih _ (by rw [hcs]; exact hsamp) (by rw [hcs, hch1]; omega)

/-- When the while-loop of the real-time auto branch is entered at channel
0, it runs the comparator handler once per channel and exits only with the
sweep complete: the exit condition `ch < cs.chs` is false and the ready
flag is raised. -/
theorem ac_loop_full_sweep (N : Nat) (f : Nat → Nat) (s : Machine)
    (h1 : s.cs.samp ≠ 1) (hch : s.ch = 0) (hchs : 0 < s.cs.chs) :
    (ac_loop N f s.cs.chs s).ch = s.cs.chs ∧
    (ac_loop N f s.cs.chs s).rdy = true := by
  rw [ac_loop_eq_runISR N f s.cs.chs s h1 (by omega)]
  obtain ⟨hr, hc, _⟩ := rt_sweep_aux N f s.cs.chs s h1 (by omega) hchs
  exact ⟨hc, hr⟩

theorem start_sweep_et (N : Nat) (f : Nat → Nat) (s : Machine)
    (h : s.cs.samp = 1) :
    (start_sweep N f s).cs = s.cs ∧
    (start_sweep N f s).ch = 0 ∧
    (start_sweep N f s).n = 0 ∧
    (start_sweep N f s).ocr1b = 1 ∧
    (start_sweep N f s).acie = true ∧
    (start_sweep N f s).rdy = s.rdy ∧
    (start_sweep N f s).adcCursor = s.adcCursor ∧
    (start_sweep N f s).log = s.log ∧
    (start_sweep N f s).buf = s.buf := by
  by_cases hs : s.cs.slope ≠ 0 <;> simp [start_sweep, set_chan, hs, h]

theorem start_sweep_rt_normal (N : Nat) (f : Nat → Nat) (s : Machine)
    (h1 : s.cs.samp ≠ 1) (h2 : s.cs.trig ≠ 0) :
    (start_sweep N f s).cs = s.cs ∧
    (start_sweep N f s).ch = 0 ∧
    (start_sweep N f s).acie = true ∧
    (start_sweep N f s).rdy = s.rdy ∧
    (start_sweep N f s).log = s.log ∧
    (start_sweep N f s).buf = s.buf ∧
    (start_sweep N f s).adcCursor = s.adcCursor := by
  by_cases hs : s.cs.slope ≠ 0 <;> simp [start_sweep, set_chan, hs, h1, h2]

theorem start_sweep_acis0 (N : Nat) (f : Nat → Nat) (s : Machine) :
    (start_sweep N f s).acis0 = decide (s.cs.slope ≠ 0) := by
  by_cases hs : s.cs.slope ≠ 0 <;> by_cases h1 : s.cs.samp = 1 <;>
    by_cases h2 : s.cs.trig ≠ 0 <;>
      simp [start_sweep, set_chan, hs, h1, h2, ac_loop_acis0]

theorem start_sweep_rt_auto (N : Nat) (f : Nat → Nat) (s : Machine)
    (h1 : s.cs.samp ≠ 1) (h2 : s.cs.trig = 0) (hchs : 0 < s.cs.chs) :
    (start_sweep N f s).ch = s.cs.chs ∧ (start_sweep N f s).rdy = true := by
  have key : ∀ t : Machine, t.cs = s.cs → t.ch = 0 →
      (ac_loop N f s.cs.chs t).ch = s.cs.chs ∧
      (ac_loop N f s.cs.chs t).rdy = true := by
    intro t htcs htch
    have h1t : t.cs.samp ≠ 1 := by rw [htcs]; exact h1
    have hfuel : s.cs.chs = t.cs.chs := by rw [htcs]
    obtain ⟨hc, hr⟩ :=
      ac_loop_full_sweep N f t h1t htch (by rw [htcs]; exact hchs)
    constructor
    · rw [hfuel, hc, htcs]
    · rw [hfuel, hr]
  by_cases hs : s.cs.slope ≠ 0 <;>
    simp [start_sweep, set_chan, hs, h1, h2] <;>
    (refine key _ ?_ ?_ <;> rfl)

end Ascope

namespace Ascope

/-- C7: `start_sweep` selects channel 0 and arms the trigger detector per
the current control state (ACIS0 reflects the slope field; the comparator
interrupt is enabled in equivalent-time mode and in real-time normal-trigger
mode, and the handler is not invoked — ready flag, log and buffer are
untouched); only in real-time auto-trigger mode does it invoke the
trigger-fire handler synthetically in a loop until all configured channels
are exhausted, so that such a sweep completes — channel index equal to the
channel count and ready flag raised — without waiting for any trigger
edge. -/
theorem start_sweep_modes (N : Nat) (f : Nat → Nat) (s : Machine)
    (hrdy : s.rdy = false) :
    (start_sweep N f s).acis0 = decide (s.cs.slope ≠ 0) ∧
    (s.cs.samp = 1 →
      (start_sweep N f s).ch = 0 ∧ (start_sweep N f s).acie = true ∧
      (start_sweep N f s).rdy = false ∧ (start_sweep N f s).log = s.log ∧
      (start_sweep N f s).buf = s.buf) ∧
    (s.cs.samp ≠ 1 → s.cs.trig ≠ 0 →
      (start_sweep N f s).ch = 0 ∧ (start_sweep N f s).acie = true ∧
      (start_sweep N f s).rdy = false ∧ (start_sweep N f s).log = s.log ∧
      (start_sweep N f s).buf = s.buf) ∧
    (s.cs.samp ≠ 1 → s.cs.trig = 0 → 0 < s.cs.chs →
      (start_sweep N f s).ch = s.cs.chs ∧ (start_sweep N f s).rdy = true) := by
  refine ⟨start_sweep_acis0 N f s, ?_, ?_, ?_⟩
  · intro h1
    obtain ⟨_, hch, _, _, hacie, hr, _, hlog, hbuf⟩ := start_sweep_et N f s h1
    exact ⟨hch, hacie, by rw [hr, hrdy], hlog, hbuf⟩
  · intro h1 h2
    obtain ⟨_, hch, hacie, hr, hlog, hbuf, _⟩ :=
      start_sweep_rt_normal N f s h1 h2
    exact ⟨hch, hacie, by rw [hr, hrdy], hlog, hbuf⟩
  · intro h1 h2 hchs
    exact start_sweep_rt_auto N f s h1 h2 hchs

/-- Witness for the start-sweep-modes claim: in equivalent-time mode the
detector is armed without invoking the handler, and a real-time
auto-trigger start completes the sweep synthetically. -/
theorem start_sweep_modes_w :
    (start_sweep 2 demo_stream demo_et).acie = true ∧
    (start_sweep 2 demo_stream demo_rt).rdy = true :=
  ⟨((start_sweep_modes 2 demo_stream demo_et rfl).2.1 rfl).2.1,
   ((start_sweep_modes 2 demo_stream demo_rt rfl).2.2.2 (by decide) rfl
      (by decide)).2⟩

/-! ### Trigger re-arm discipline -/

/-- C4: re-arming the trigger detector after an acquisition step always
clears the pending trigger indicator first (atomically, in the same
register write).  In the equivalent-time conversion handler, starting from
a state with the comparator interrupt disabled (as it always is while the
conversion is in flight), whenever the handler leaves the interrupt enabled
it leaves the pending flag cleared, whatever stale value the flag had.  In
the real-time handler, whenever channels remain (the detector stays armed)
the pending flag is cleared before return, and when none remain the
detector is disarmed.  The equivalent-time comparator handler itself
disarms the detector on fire, and a disarmed detector never services a
pending trigger. -/
theorem trigger_rearm_clears_pending :
    (∀ (N : Nat) (f : Nat → Nat) (s : Machine), s.acie = false →
      ((ADC_vect N f s).acie = true → (ADC_vect N f s).aci = false)) ∧
    (∀ (N : Nat) (f : Nat → Nat) (s : Machine), s.cs.samp = 1 →
      (ANALOG_COMP_vect N f s).acie = false) ∧
    (∀ (N : Nat) (f : Nat → Nat) (s : Machine), s.cs.samp ≠ 1 →
      ((ANALOG_COMP_vect N f s).ch < (ANALOG_COMP_vect N f s).cs.chs →
        (ANALOG_COMP_vect N f s).aci = false) ∧
      (¬ (ANALOG_COMP_vect N f s).ch < (ANALOG_COMP_vect N f s).cs.chs →
        (ANALOG_COMP_vect N f s).acie = false)) ∧
    (∀ s : Machine, s.acie = false → canFireAC s = false) := by
  refine ⟨?_, ?_, ?_, ?_⟩
  · intro N f s hacie
    unfold ADC_vect
    dsimp only
    split_ifs <;> intro hc <;>
      first
      | rfl
      | exact absurd hc (by simp [hacie])
  · intro N f s h
    unfold ANALOG_COMP_vect
    rw [if_pos h]
  · intro N f s h
    obtain ⟨hcs, hch1, _, _, _, _, _, _, _, hmore, hdone⟩ :=
      AC_rt_fields N f s h
    constructor
    · intro hlt
      rw [hch1, hcs] at hlt
      exact (hmore hlt).2.2
    · intro hn
      rw [hch1, hcs] at hn
      exact (hdone hn).2
  · intro s h
    unfold canFireAC
    rw [h]
    rfl

/-- Witness for the re-arm claim: at N = 2 from a mid-sweep
equivalent-time state with a stale pending flag, the conversion handler
re-arms with the flag cleared, and a disarmed detector cannot fire. -/
theorem trigger_rearm_clears_pending_w :
    (ADC_vect 2 demo_stream
      { demo_et with acie := false, aci := true }).aci = false ∧
    canFireAC { demo_et with acie := false, aci := true } = false := by
  constructor
  · exact trigger_rearm_clears_pending.1 2 demo_stream
      { demo_et with acie := false, aci := true } rfl rfl
  · exact trigger_rearm_clears_pending.2.2.2
      { demo_et with acie := false, aci := true } rfl

end Ascope

namespace Ascope

/-! ### Equivalent-time acquisition -/

theorem runISR_succ_back (g : Machine → Machine) :
    ∀ (k : Nat) (s : Machine), runISR g (k + 1) s = g (runISR g k s) := by
  intro k
  induction k with
  | zero => intro s; rfl
  | succ k ih =>
      intro s
      show runISR g (k + 1) (g s) = g (runISR g (k + 1) s)
      rw [ih (g s)]
      rfl

theorem AC_et_fields (N : Nat) (f : Nat → Nat) (s : Machine)
    (h : s.cs.samp = 1) :
    (ANALOG_COMP_vect N f s).cs = s.cs ∧
    (ANALOG_COMP_vect N f s).n = s.n ∧
    (ANALOG_COMP_vect N f s).ch = s.ch ∧
    (ANALOG_COMP_vect N f s).ocr1b = s.ocr1b ∧
    (ANALOG_COMP_vect N f s).rdy = s.rdy ∧
    (ANALOG_COMP_vect N f s).adcCursor = s.adcCursor ∧
    (ANALOG_COMP_vect N f s).log = s.log ∧
    (ANALOG_COMP_vect N f s).buf = s.buf := by
  unfold ANALOG_COMP_vect
  rw [if_pos h]
  exact ⟨rfl, rfl, rfl, rfl, rfl, rfl, rfl, rfl⟩

theorem ADC_common (N : Nat) (f : Nat → Nat) (s : Machine) :
    (ADC_vect N f s).cs = s.cs ∧
    (ADC_vect N f s).adcCursor = s.adcCursor + 1 ∧
    (ADC_vect N f s).log =
      s.log ++ [SampleWrite.mk s.ch s.n s.ocr1b (f s.adcCursor)] ∧
    (ADC_vect N f s).buf = updBuf s.buf s.ch s.n (f s.adcCursor) := by
  unfold ADC_vect
  dsimp only
  split_ifs <;> exact ⟨rfl, rfl, rfl, rfl⟩

theorem ADC_branch (N : Nat) (f : Nat → Nat) (s : Machine) :
    (s.n + 1 ≠ N →
      (ADC_vect N f s).n = s.n + 1 ∧
      (ADC_vect N f s).ocr1b = (s.ocr1b + 1) % 65536 ∧
      (ADC_vect N f s).ch = s.ch ∧
      (ADC_vect N f s).rdy = s.rdy) ∧
    (s.n + 1 = N → s.ch + 1 < s.cs.chs →
      (ADC_vect N f s).n = 0 ∧ (ADC_vect N f s).ocr1b = 1 ∧
      (ADC_vect N f s).ch = s.ch + 1 ∧ (ADC_vect N f s).rdy = s.rdy) ∧
    (s.n + 1 = N → ¬ s.ch + 1 < s.cs.chs →
      (ADC_vect N f s).n = 0 ∧ (ADC_vect N f s).ocr1b = 1 ∧
      (ADC_vect N f s).ch = s.ch + 1 ∧ (ADC_vect N f s).rdy = true) := by
  unfold ADC_vect
  dsimp only
  split_ifs with h1 h2
  · exact ⟨fun hn => absurd h1 hn, fun _ _ => ⟨rfl, rfl, rfl, rfl⟩,
      fun _ hn => absurd h2 hn⟩
  · exact ⟨fun hn => absurd h1 hn, fun _ hlt => absurd hlt h2,
      fun _ _ => ⟨rfl, rfl, rfl, rfl⟩⟩
  · exact ⟨fun _ => ⟨rfl, rfl, rfl, rfl⟩, fun hn _ => absurd hn h1,
      fun hn _ => absurd hn h1⟩

theorem div_mod_of_decomp {N c p : Nat} (hN : 0 < N) (hp : p < N) :
    (c * N + p) / N = c ∧ (c * N + p) % N = p := by
  constructor
  · rw [Nat.mul_comm c N, Nat.mul_add_div hN, Nat.div_eq_of_lt hp,
      Nat.add_zero]
  · rw [Nat.mul_comm c N, Nat.mul_add_mod, Nat.mod_eq_of_lt hp]

theorem cell_eq_of_decomp {N c p i : Nat} (hN : 0 < N) (hp : p < N)
    (he : c * N + p = i) : c = i / N ∧ p = i % N := by
  subst he
  exact ⟨(div_mod_of_decomp hN hp).1.symm, (div_mod_of_decomp hN hp).2.symm⟩

theorem succ_mod_div_lt {i N : Nat} (hN : 0 < N) (h : i % N + 1 < N) :
    (i + 1) % N = i % N + 1 ∧ (i + 1) / N = i / N := by
  have hd := Nat.div_add_mod i N
  have he : i + 1 = N * (i / N) + (i % N + 1) := by omega
  constructor
  · rw [he, Nat.mul_add_mod, Nat.mod_eq_of_lt h]
  · rw [he, Nat.mul_add_div hN, Nat.div_eq_of_lt h, Nat.add_zero]

theorem succ_mod_div_eq {i N : Nat} (hN : 0 < N) (h : i % N + 1 = N) :
    (i + 1) % N = 0 ∧ (i + 1) / N = i / N + 1 := by
  have hd := Nat.div_add_mod i N
  have he : i + 1 = N * (i / N + 1) + 0 := by
    rw [Nat.mul_add, Nat.mul_one]; omega
  constructor
  · rw [he, Nat.mul_add_mod, Nat.zero_mod]
  · rw [he, Nat.mul_add_div hN, Nat.zero_div, Nat.add_zero]

end Ascope

namespace Ascope

/-- Invariant of the equivalent-time sweep: after `i` trigger events
(each one comparator fire followed by one conversion-complete interrupt)
from a freshly started sweep, the position is `i % N`, the channel is
`i / N`, the delay OCR1B is `i % N + 1`, exactly `i` stream elements have
been consumed, the ready flag is raised exactly at `i = chs * N`, the log
lists sample `j` as written to channel `j / N`, position `j % N`, at delay
`j % N + 1`, and the buffer holds the stream values at all cells already
visited. -/
theorem et_inv (N : Nat) (f : Nat → Nat) (s0 : Machine)
    (hsamp : s0.cs.samp = 1) (hn0 : s0.n = 0) (hocr0 : s0.ocr1b = 1)
    (hch0 : s0.ch = 0) (hrdy0 : s0.rdy = false)
    (hN : 0 < N) (hN2 : N ≤ 65535) (hchs : 0 < s0.cs.chs) :
    ∀ i, i ≤ s0.cs.chs * N →
      (runISR (et_cycle N f) i s0).cs = s0.cs ∧
      (runISR (et_cycle N f) i s0).n = i % N ∧
      (runISR (et_cycle N f) i s0).ch = i / N ∧
      (runISR (et_cycle N f) i s0).ocr1b = i % N + 1 ∧
      (runISR (et_cycle N f) i s0).adcCursor = s0.adcCursor + i ∧
      (runISR (et_cycle N f) i s0).rdy = decide (i = s0.cs.chs * N) ∧
      (runISR (et_cycle N f) i s0).log = s0.log ++
        (List.range i).map (fun j =>
          SampleWrite.mk (j / N) (j % N) (j % N + 1) (f (s0.adcCursor + j))) ∧
      (∀ c2 p, (runISR (et_cycle N f) i s0).buf c2 p =
        if c2 * N + p < i ∧ p < N then f (s0.adcCursor + (c2 * N + p))
        else s0.buf c2 p) := by
  have hKpos : 0 < s0.cs.chs * N := Nat.mul_pos hchs hN
  intro i
  induction i with
  | zero =>
      intro _
      refine ⟨rfl, ?_, ?_, ?_, ?_, ?_, ?_, ?_⟩
      · show s0.n = 0 % N
        rw [hn0, Nat.zero_mod]
      · show s0.ch = 0 / N
        rw [hch0, Nat.zero_div]
      · show s0.ocr1b = 0 % N + 1
        rw [hocr0, Nat.zero_mod]
      · show s0.adcCursor = s0.adcCursor + 0
        rfl
      · show s0.rdy = decide (0 = s0.cs.chs * N)
        rw [hrdy0, decide_eq_false (by omega)]
      · show s0.log = s0.log ++ (List.range 0).map _
        simp
      · intro c2 p
        show s0.buf c2 p =
          if c2 * N + p < 0 ∧ p < N then f (s0.adcCursor + (c2 * N + p))
          else s0.buf c2 p
        rw [if_neg (by omega)]
  | succ i ih =>
      intro hle
      have hilt : i < s0.cs.chs * N := by omega
      have hmodlt : i % N < N := Nat.mod_lt i hN
      obtain ⟨tcs, tn, tch, tocr, tcur, trdy, tlog, tbuf⟩ := ih (by omega)
      have hts : (runISR (et_cycle N f) i s0).cs.samp = 1 := by
        rw [tcs]; exact hsamp
      obtain ⟨ucs, un, uch, uocr, urdy, ucur, ulog, ubuf⟩ :=
        AC_et_fields N f (runISR (et_cycle N f) i s0) hts
      obtain ⟨acs, acur, alog, abuf⟩ :=
        ADC_common N f (ANALOG_COMP_vect N f (runISR (et_cycle N f) i s0))
      rw [runISR_succ_back]
      simp only [et_cycle]
      have H1 : (ADC_vect N f
          (ANALOG_COMP_vect N f (runISR (et_cycle N f) i s0))).cs = s0.cs := by
        rw [acs, ucs, tcs]
      have H5 : (ADC_vect N f
          (ANALOG_COMP_vect N f (runISR (et_cycle N f) i s0))).adcCursor =
          s0.adcCursor + (i + 1) := by
        rw [acur, ucur, tcur]
        omega
      have H7 : (ADC_vect N f
          (ANALOG_COMP_vect N f (runISR (et_cycle N f) i s0))).log =
          s0.log ++ (List.range (i + 1)).map (fun j =>
            SampleWrite.mk (j / N) (j % N) (j % N + 1)
              (f (s0.adcCursor + j))) := by
        rw [alog, ulog, tlog, uch, tch, un, tn, uocr, tocr, ucur, tcur]
        rw [List.range_succ, List.map_append, List.append_assoc]
        simp
      have H8 : ∀ c2 p, (ADC_vect N f
          (ANALOG_COMP_vect N f (runISR (et_cycle N f) i s0))).buf c2 p =
          if c2 * N + p < i + 1 ∧ p < N then f (s0.adcCursor + (c2 * N + p))
          else s0.buf c2 p := by
        intro c2 p
        rw [abuf, ubuf, uch, tch, un, tn, ucur, tcur]
        simp only [updBuf]
        by_cases hc2 : c2 = i / N
        · by_cases hpp : p = i % N
          · subst hc2
            subst hpp
            rw [if_pos rfl, if_pos rfl]
            have hei : i / N * N + i % N = i := by
              rw [Nat.mul_comm]
              exact Nat.div_add_mod i N
            rw [hei, if_pos ⟨by omega, hmodlt⟩]
          · rw [if_pos hc2, if_neg hpp, tbuf c2 p]
            subst hc2
            by_cases hpN : p < N
            · have hne : i / N * N + p ≠ i := by
                intro he
                exact hpp (cell_eq_of_decomp hN hpN he).2
              refine if_congr ?_ rfl rfl
              constructor
              · rintro ⟨h5, h6⟩
                exact ⟨by omega, h6⟩
              · rintro ⟨h5, h6⟩
                exact ⟨by omega, h6⟩
            · refine if_congr ?_ rfl rfl
              constructor
              · rintro ⟨_, h6⟩
                exact absurd h6 hpN
              · rintro ⟨_, h6⟩
                exact absurd h6 hpN
        · rw [if_neg hc2, tbuf c2 p]
          by_cases hpN : p < N
          · have hne : c2 * N + p ≠ i := by
              intro he
              exact hc2 (cell_eq_of_decomp hN hpN he).1
            refine if_congr ?_ rfl rfl
            constructor
            · rintro ⟨h5, h6⟩
              exact ⟨by omega, h6⟩
            · rintro ⟨h5, h6⟩
              exact ⟨by omega, h6⟩
          · refine if_congr ?_ rfl rfl
            constructor
            · rintro ⟨_, h6⟩
              exact absurd h6 hpN
            · rintro ⟨_, h6⟩
              exact absurd h6 hpN
      by_cases hcase : i % N + 1 = N
      · by_cases hch2 : i / N + 1 < s0.cs.chs
        · obtain ⟨bn, bocr, bch, brdy⟩ :=
            (ADC_branch N f
              (ANALOG_COMP_vect N f (runISR (et_cycle N f) i s0))).2.1
              (by rw [un, tn]; omega)
              (by rw [uch, tch, ucs, tcs]; exact hch2)
          have hdiv := (succ_mod_div_eq hN hcase).2
          have hmod := (succ_mod_div_eq hN hcase).1
          refine ⟨H1, ?_, ?_, ?_, H5, ?_, H7, H8⟩
          · rw [bn, hmod]
          · rw [bch, uch, tch, hdiv]
          · rw [bocr, hmod]
          · rw [brdy, urdy, trdy]
            have hKdiv : s0.cs.chs * N / N = s0.cs.chs := by
              have h9 : s0.cs.chs * N + 0 = s0.cs.chs * N := by omega
              have h10 := (div_mod_of_decomp (c := s0.cs.chs) (p := 0) hN hN).1
              rw [h9] at h10
              exact h10
            have hne2 : i + 1 ≠ s0.cs.chs * N := by
              intro he
              rw [he, hKdiv] at hdiv
              omega
            rw [decide_eq_false (by omega), decide_eq_false hne2]
        · obtain ⟨bn, bocr, bch, brdy⟩ :=
            (ADC_branch N f
              (ANALOG_COMP_vect N f (runISR (et_cycle N f) i s0))).2.2
              (by rw [un, tn]; omega)
              (by rw [uch, tch, ucs, tcs]; exact hch2)
          have hdiv := (succ_mod_div_eq hN hcase).2
          have hmod := (succ_mod_div_eq hN hcase).1
          have hieq : i + 1 = s0.cs.chs * N := by
            have h1 : i / N < s0.cs.chs := (Nat.div_lt_iff_lt_mul hN).mpr hilt
            have h2 : i / N + 1 = s0.cs.chs := by omega
            have hd := Nat.div_add_mod (i + 1) N
            rw [hdiv, hmod, h2, Nat.add_zero] at hd
            rw [← hd, Nat.mul_comm]
          refine ⟨H1, ?_, ?_, ?_, H5, ?_, H7, H8⟩
          · rw [bn, hmod]
          · rw [bch, uch, tch, hdiv]
          · rw [bocr, hmod]
          · rw [brdy, hieq]
            simp
      · have hlt2 : i % N + 1 < N := by omega
        obtain ⟨bn, bocr, bch, brdy⟩ :=
          (ADC_branch N f
            (ANALOG_COMP_vect N f (runISR (et_cycle N f) i s0))).1
            (by rw [un, tn]; omega)
        have hdiv := (succ_mod_div_lt hN hlt2).2
        have hmod := (succ_mod_div_lt hN hlt2).1
        refine ⟨H1, ?_, ?_, ?_, H5, ?_, H7, H8⟩
        · rw [bn, un, tn, hmod]
        · rw [bch, uch, tch, hdiv]
        · rw [bocr, uocr, tocr, hmod]
          rw [Nat.mod_eq_of_lt (by omega)]
        · rw [brdy, urdy, trdy]
          have hne2 : i + 1 ≠ s0.cs.chs * N := by
            intro he
            have h4 := hmod
            rw [he, Nat.mul_mod_left] at h4
            omega
          rw [decide_eq_false (by omega), decide_eq_false hne2]

end Ascope

namespace Ascope

theorem range_mul_map_blocks (N : Nat) (g : Nat → SampleWrite) :
    ∀ chs : Nat, (List.range (chs * N)).map g =
      (List.range chs).flatMap (fun c =>
        (List.range N).map (fun p => g (c * N + p))) := by
  intro chs
  induction chs with
  | zero => simp
  | succ chs ih =>
      have he : Nat.succ chs * N = chs * N + N := by rw [Nat.succ_mul]
      rw [he, List.range_add, List.map_append, ih, List.range_succ,
        List.flatMap_append, List.flatMap_cons, List.flatMap_nil,
        List.append_nil]
      congr 1
      rw [List.map_map]
      apply List.map_congr_left
      intro p _
      rfl

/-- C1: a completed equivalent-time sweep of `cs.chs * N` trigger events,
started by `start_sweep` (which initialises position 0 and the minimum
delay OCR1B = 1), writes per channel exactly the positions 0..N-1, once
each and in order, the recorded trigger-to-sample delay being `p + 1` at
position `p` — so it increases by exactly one unit between consecutive
same-channel samples and restarts at the minimum 1 when the position
wraps to 0; the final state has the ready flag raised, the channel index
equal to the channel count, position 0 and delay 1 again, and the buffer
holds sample `p` of channel `c` as the stream value at offset `c*N + p`.
Moreover whenever the conversion handler advances the channel, it has
already reset the position to 0 and the delay to its minimum 1. -/
theorem et_sweep_positions_and_delays (N : Nat) (f : Nat → Nat)
    (s : Machine) (hsamp : s.cs.samp = 1) (hrdy : s.rdy = false)
    (hN : 0 < N) (hN2 : N ≤ 65535) (hchs : 0 < s.cs.chs) :
    (runISR (et_cycle N f) (s.cs.chs * N) (start_sweep N f s)).rdy = true ∧
    (runISR (et_cycle N f) (s.cs.chs * N) (start_sweep N f s)).ch =
      s.cs.chs ∧
    (runISR (et_cycle N f) (s.cs.chs * N) (start_sweep N f s)).n = 0 ∧
    (runISR (et_cycle N f) (s.cs.chs * N) (start_sweep N f s)).ocr1b = 1 ∧
    (start_sweep N f s).n = 0 ∧ (start_sweep N f s).ocr1b = 1 ∧
    (runISR (et_cycle N f) (s.cs.chs * N) (start_sweep N f s)).log =
      s.log ++ (List.range s.cs.chs).flatMap (fun c =>
        (List.range N).map (fun p =>
          SampleWrite.mk c p (p + 1) (f (s.adcCursor + (c * N + p))))) ∧
    (∀ c p, c < s.cs.chs → p < N →
      (runISR (et_cycle N f) (s.cs.chs * N) (start_sweep N f s)).buf c p =
        f (s.adcCursor + (c * N + p))) ∧
    (∀ u : Machine, (ADC_vect N f u).ch = u.ch + 1 →
      (ADC_vect N f u).n = 0 ∧ (ADC_vect N f u).ocr1b = 1) := by
  obtain ⟨scs, sch, sn, socr, _, srdy, scur, slog, sbuf⟩ :=
    start_sweep_et N f s hsamp
  obtain ⟨rcs, rn, rch, rocr, rcur, rrdy, rlog, rbuf⟩ :=
    et_inv N f (start_sweep N f s) (by rw [scs]; exact hsamp) sn socr sch
      (by rw [srdy]; exact hrdy) hN hN2 (by rw [scs]; exact hchs)
      (s.cs.chs * N) (by rw [scs])
  have hKmod : s.cs.chs * N % N = 0 := Nat.mul_mod_left _ _
  have hKdiv : s.cs.chs * N / N = s.cs.chs := by
    have h10 := (div_mod_of_decomp (c := s.cs.chs) (p := 0) hN hN).1
    rw [Nat.add_zero] at h10
    exact h10
  refine ⟨?_, ?_, ?_, ?_, sn, socr, ?_, ?_, ?_⟩
  · rw [rrdy, scs]
    simp
  · rw [rch, hKdiv]
  · rw [rn, hKmod]
  · rw [rocr, hKmod]
  · rw [slog, scur] at rlog
    rw [rlog, range_mul_map_blocks N _ s.cs.chs]
    congr 1
    apply flatMap_congr_aux
    intro c _
    apply List.map_congr_left
    intro p hp
    rw [List.mem_range] at hp
    obtain ⟨hd, hm⟩ := div_mod_of_decomp (c := c) hN hp
    show SampleWrite.mk ((c * N + p) / N) ((c * N + p) % N)
        ((c * N + p) % N + 1) (f (s.adcCursor + (c * N + p))) =
      SampleWrite.mk c p (p + 1) (f (s.adcCursor + (c * N + p)))
    rw [hd, hm]
  · intro c p hc hp
    have hlt : c * N + p < s.cs.chs * N := by
      have h1 : c * N + p < (c + 1) * N := by
        rw [Nat.add_mul, Nat.one_mul]
        omega
      have h2 : (c + 1) * N ≤ s.cs.chs * N := Nat.mul_le_mul_right N hc
      omega
    rw [rbuf c p, if_pos ⟨hlt, hp⟩, scur]
  · intro u hchadv
    by_cases h1 : u.n + 1 = N
    · by_cases h2 : u.ch + 1 < u.cs.chs
      · obtain ⟨bn, bocr, _, _⟩ := (ADC_branch N f u).2.1 h1 h2
        exact ⟨bn, bocr⟩
      · obtain ⟨bn, bocr, _, _⟩ := (ADC_branch N f u).2.2 h1 h2
        exact ⟨bn, bocr⟩
    · obtain ⟨_, _, bch, _⟩ := (ADC_branch N f u).1 h1
      rw [bch] at hchadv
      omega

/-- Witness for the equivalent-time sweep claim: the two-channel demo
configuration at N = 2 completes with the ready flag raised. -/
theorem et_sweep_positions_and_delays_w :
    (runISR (et_cycle 2 demo_stream) (demo_et.cs.chs * 2)
      (start_sweep 2 demo_stream demo_et)).rdy = true :=
  (et_sweep_positions_and_delays 2 demo_stream demo_et rfl rfl
    (by decide) (by decide) (by decide)).1

end Ascope

namespace Ascope

/-- C10: in equivalent-time mode the trigger-mode field has no influence:
`start_sweep`, the comparator handler and the conversion handler behave
identically for any two values of `cs.trig` (the results differ only in
the stored field itself), the comparator interrupt is always armed by
`start_sweep`, and the fire handler is never invoked synthetically (ready
flag and log are untouched) — so an equivalent-time sweep in auto-trigger
mode still waits for a real trigger edge exactly as in normal mode. -/
theorem et_ignores_trigger_mode (N : Nat) (f : Nat → Nat) (s : Machine)
    (t1 t2 : Nat) (h : s.cs.samp = 1) :
    start_sweep N f (set_trig s t1) =
      set_trig (start_sweep N f (set_trig s t2)) t1 ∧
    ANALOG_COMP_vect N f (set_trig s t1) =
      set_trig (ANALOG_COMP_vect N f (set_trig s t2)) t1 ∧
    ADC_vect N f (set_trig s t1) =
      set_trig (ADC_vect N f (set_trig s t2)) t1 ∧
    (start_sweep N f s).acie = true ∧
    (start_sweep N f s).rdy = s.rdy ∧
    (start_sweep N f s).log = s.log := by
  obtain ⟨_, _, _, _, hacie, hr, _, hlog, _⟩ := start_sweep_et N f s h
  refine ⟨?_, ?_, ?_, hacie, hr, hlog⟩
  · unfold start_sweep set_trig set_chan
    dsimp only
    split_ifs <;> rfl
  · unfold ANALOG_COMP_vect set_trig
    dsimp only
    split_ifs
    all_goals rfl
  · unfold ADC_vect set_trig updBuf
    dsimp only
    split_ifs
    all_goals rfl

/-- Witness for the trigger-mode independence claim: at N = 2 on the demo
equivalent-time machine, firing the comparator with the trigger-mode field
1 equals firing it with the field 0 and then restoring the field. -/
theorem et_ignores_trigger_mode_w :
    ANALOG_COMP_vect 2 demo_stream (set_trig demo_et 1) =
      set_trig (ANALOG_COMP_vect 2 demo_stream (set_trig demo_et 0)) 1 :=
  (et_ignores_trigger_mode 2 demo_stream demo_et 1 0 rfl).2.1

end Ascope
